import Mathlib

/-!
Verification development for the resume tailoring service layer.

The definitions below are a shallow embedding of the orchestration core:
the text normalizer formatAIResponse, the streaming reconciliation loops of
generateInitialResumeDraft, changeResumeTone and refineResume, the retry
wrapper withRetry, the preprocessing function preprocessText, and the
grounding source deduplication of fetchBestPractices.  Strings are modelled
as lists of characters; the JavaScript regular expression replacements are
modelled by explicit left-to-right scanning functions with the same
leftmost, lazy, global semantics; whitespace is modelled on the ASCII range.
-/

set_option maxHeartbeats 1000000

namespace ResumeTailor

/-- Whitespace test matching the JavaScript trim and regex whitespace class
on the ASCII range (space, tab, line feed, vertical tab, form feed,
carriage return). -/
def isJsWs (c : Char) : Bool :=
  c == ' ' || c == '\t' || c == '\n' || c == '\r' || c.toNat == 11 || c.toNat == 12

/-- Embedding of the JavaScript trim over a list of characters: drop
whitespace from the front, then from the back. -/
def jsTrim (l : List Char) : List Char :=
  ((l.dropWhile isJsWs).reverse.dropWhile isJsWs).reverse

/-- Searcher for the lazy body of a doubled-delimiter markdown pattern
(two copies of d, a shortest newline-free body, two copies of d): returns
the body together with the characters remaining after the closing pair,
or none when no such closing pair exists before a newline or the end. -/
def findCloseDouble (d : Char) : List Char → Option (List Char × List Char)
  | [] => none
  | c :: cs =>
    if c == d && cs.head? == some d then
      some ([], cs.tail)
    else if c == '\n' then none
    else (findCloseDouble d cs).map (fun p => (c :: p.1, p.2))

/-- Fuel-indexed global replacement of a doubled-delimiter emphasis pattern
by its body, scanning once from the left as the JavaScript global lazy
regex replace does.  The fuel bounds the number of scanning steps and is
instantiated with the length of the list, which always suffices. -/
def replaceDoubleF (d : Char) : Nat → List Char → List Char
  | _, [] => []
  | 0, l => l
  | f + 1, c :: cs =>
    if c == d && cs.head? == some d then
      match findCloseDouble d cs.tail with
      | some p => p.1 ++ replaceDoubleF d f p.2
      | none => c :: replaceDoubleF d f cs
    else
      c :: replaceDoubleF d f cs

/-- Global replacement of the doubled-delimiter emphasis pattern. -/
def replaceDouble (d : Char) (l : List Char) : List Char :=
  replaceDoubleF d l.length l

/-- Searcher for the lazy body of the single-asterisk emphasis pattern.
The closing asterisk must not be preceded or followed by another asterisk
(the lookaround conditions of the source regex); the body may not contain
a newline.  The first argument is the character immediately preceding the
current scanning position in the original text. -/
def findCloseStar (prevc : Char) : List Char → Option (List Char × List Char)
  | [] => none
  | c :: cs =>
    if c == '*' && prevc != '*' && cs.head? != some '*' then
      some ([], cs)
    else if c == '\n' then none
    else (findCloseStar c cs).map (fun p => (c :: p.1, p.2))

/-- Fuel-indexed global replacement of the single-asterisk emphasis pattern
by its body.  The option argument is the character immediately before the
scanning position in the original text, used for the lookbehind condition;
an opening asterisk must not be preceded or followed by another asterisk. -/
def replaceStarF : Nat → Option Char → List Char → List Char
  | _, _, [] => []
  | 0, _, l => l
  | f + 1, prev, c :: cs =>
    if c == '*' && prev != some '*' && cs.head? != some '*' then
      match findCloseStar '*' cs with
      | some p => p.1 ++ replaceStarF f (some '*') p.2
      | none => c :: replaceStarF f (some '*') cs
    else
      c :: replaceStarF f (some c) cs

/-- Global replacement of the single-asterisk emphasis pattern. -/
def replaceStar (l : List Char) : List Char := replaceStarF l.length none l

/-- Searcher for the lazy body of the single-underscore emphasis pattern:
shortest newline-free body followed by a closing underscore. -/
def findCloseUnd : List Char → Option (List Char × List Char)
  | [] => none
  | c :: cs =>
    if c == '_' then some ([], cs)
    else if c == '\n' then none
    else (findCloseUnd cs).map (fun p => (c :: p.1, p.2))

/-- Fuel-indexed global replacement of the single-underscore emphasis
pattern by its body. -/
def replaceUndF : Nat → List Char → List Char
  | _, [] => []
  | 0, l => l
  | f + 1, c :: cs =>
    if c == '_' then
      match findCloseUnd cs with
      | some p => p.1 ++ replaceUndF f p.2
      | none => c :: replaceUndF f cs
    else
      c :: replaceUndF f cs

/-- Global replacement of the single-underscore emphasis pattern. -/
def replaceUnd (l : List Char) : List Char := replaceUndF l.length l

/-- Split a character list on every line feed, keeping empty segments,
exactly as the JavaScript split on a newline does. -/
def splitOnNl : List Char → List (List Char)
  | [] => [[]]
  | c :: cs =>
    if c == '\n' then [] :: splitOnNl cs
    else
      match splitOnNl cs with
      | l :: ls => (c :: l) :: ls
      | [] => [[c]]

/-- Rejoin lines with a line feed separator. -/
def joinNl : List (List Char) → List Char
  | [] => []
  | [l] => l
  | l :: ls => l ++ '\n' :: joinNl ls

/-- Helper for the ordered-list marker test: after the first digit, accept
further digits, then a dot followed by a whitespace character. -/
def isOrderedTail : List Char → Bool
  | [] => false
  | c :: cs =>
    if c.isDigit then isOrderedTail cs
    else c == '.' && (match cs.head? with | some w => isJsWs w | none => false)

/-- Test for the ordered-list marker regex: one or more digits, a dot and a
whitespace character, at the start of the line. -/
def isOrderedMarker : List Char → Bool
  | [] => false
  | c :: cs => c.isDigit && isOrderedTail cs

/-- Test whether a trimmed line begins with a bullet marker or an
ordered-list marker. -/
def isListMarkerLine (t : List Char) : Bool :=
  ['*', ' '].isPrefixOf t || ['-', ' '].isPrefixOf t || isOrderedMarker t

/-- Characters strictly after the first space. -/
def dropThroughSpace : List Char → List Char
  | [] => []
  | c :: cs => if c == ' ' then cs else dropThroughSpace cs

/-- Embedding of taking the substring after the position returned by
indexOf of a space, plus one: the characters after the first space, or the
whole list when it has no space. -/
def afterFirstSpace (l : List Char) : List Char :=
  if l.contains ' ' then dropThroughSpace l else l

/-- Per-line list standardization: a line whose trimmed form begins with a
list marker is replaced by two spaces followed by the trimmed content
after its first space; other lines pass through unchanged. -/
def formatLine (line : List Char) : List Char :=
  let t := jsTrim line
  if isListMarkerLine t then ' ' :: ' ' :: afterFirstSpace t else line

/-- The text normalizer formatAIResponse: empty input short-circuits;
otherwise strip double-asterisk, double-underscore, single-asterisk and
single-underscore emphasis in that order, standardize list lines, rejoin
and trim the whole result. -/
def formatAIResponse (raw : List Char) : List Char :=
  if raw = [] then []
  else
    jsTrim (joinNl ((splitOnNl
      (replaceUnd (replaceStar (replaceDouble '_' (replaceDouble '*' raw))))).map formatLine))

/-! ## Streaming reconciliation -/

/-- State of one streaming operation: the accumulated raw text, the last
normalized text sent to the chunk callback, and the record of everything
passed to the callback (as one concatenation and as the list of individual
chunks). -/
structure StreamState where
  fullRawText : List Char
  lastSent : List Char
  emitted : List Char
  chunksOut : List (List Char)
deriving DecidableEq

/-- Initial streaming state. -/
def initStream : StreamState := ⟨[], [], [], []⟩

/-- One iteration of the streaming loop: skip an empty raw chunk; otherwise
append it to the raw buffer, recompute the formatted view of the buffer,
and when the formatted text got longer, send exactly the new suffix to the
chunk callback.  The fmt parameter is the composition applied to the raw
buffer: the normalizer for the draft and tone operations, and the
normalizer after delimiter splitting for the refine operation. -/
def streamStep (fmt : List Char → List Char) (st : StreamState) (raw : List Char) :
    StreamState :=
  if raw = [] then st
  else if st.lastSent.length < (fmt (st.fullRawText ++ raw)).length then
    ⟨st.fullRawText ++ raw, fmt (st.fullRawText ++ raw),
      st.emitted ++ (fmt (st.fullRawText ++ raw)).drop st.lastSent.length,
      st.chunksOut ++ [(fmt (st.fullRawText ++ raw)).drop st.lastSent.length]⟩
  else
    ⟨st.fullRawText ++ raw, st.lastSent, st.emitted, st.chunksOut⟩

/-- Run the streaming loop over a finite sequence of raw increments. -/
def runStream (fmt : List Char → List Char) (chunks : List (List Char)) : StreamState :=
  chunks.foldl (streamStep fmt) initStream

/-- Empty-response error message of the initial draft operation. -/
def emptyResponseMsg : List Char :=
  "The AI returned an empty response. Please try again.".data

/-- The initial draft operation on a given increment sequence: the final
streaming state paired with the completion result, which normalizes the
trimmed raw buffer and fails when that is empty. -/
def generateInitialResumeDraft (chunks : List (List Char)) :
    StreamState × Except (List Char) (List Char) :=
  (runStream formatAIResponse chunks,
    if formatAIResponse (jsTrim (runStream formatAIResponse chunks).fullRawText) = []
    then .error emptyResponseMsg
    else .ok (formatAIResponse (jsTrim (runStream formatAIResponse chunks).fullRawText)))

/-! ## Refine operation: delimiter handling -/

/-- Substring test: whether pat occurs contiguously in the list, embedding
the JavaScript includes and split containment checks. -/
def occursIn (pat : List Char) : List Char → Bool
  | [] => pat.isEmpty
  | c :: cs => pat.isPrefixOf (c :: cs) || occursIn pat cs

/-- The changelog delimiter literal of the refine operation. -/
def changelogDelimiter : List Char := "---CHANGELOG---".data

/-- Characters strictly before the first occurrence of delim, or the whole
list when delim does not occur: the first component of the JavaScript
split on delim. -/
def beforeFirst (delim : List Char) : List Char → List Char
  | [] => []
  | c :: cs => if delim.isPrefixOf (c :: cs) then [] else c :: beforeFirst delim cs

/-- The portion of the raw buffer treated as resume text by the refine
streaming loop: everything before the changelog delimiter when the buffer
contains the delimiter, the whole buffer otherwise. -/
def resumePartOf (s : List Char) : List Char :=
  if occursIn changelogDelimiter s then beforeFirst changelogDelimiter s else s

/-- The refine streaming loop: the formatted view normalizes only the
resume part of the raw buffer. -/
def refineStream (chunks : List (List Char)) : StreamState :=
  runStream (fun s => formatAIResponse (resumePartOf s)) chunks

/-! ## Resilient call executor -/

def MAX_RETRIES : Nat := 7
def INITIAL_BACKOFF_MS : Nat := 2000
def MAX_BACKOFF_MS : Nat := 30000

/-- ASCII uppercase mapping of a message, embedding toUpperCase. -/
def toUpperAscii (l : List Char) : List Char := l.map Char.toUpper

/-- Classification of a retryable error message: contains 429, 500 or 503,
or contains one of the overload markers case-insensitively. -/
def isRetryableError (msg : List Char) : Bool :=
  occursIn "429".data msg || occursIn "500".data msg || occursIn "503".data msg ||
  occursIn "SERVICE UNAVAILABLE".data (toUpperAscii msg) ||
  occursIn "RESOURCE_EXHAUSTED".data (toUpperAscii msg) ||
  occursIn "RATE LIMIT".data (toUpperAscii msg)

/-- Fallback message of the dead code path after the retry loop. -/
def retriesExhaustedMsg : List Char := "Request failed after multiple retries.".data

/-- The retry loop.  The call is modelled as a function from the zero-based
attempt index to its outcome; an error carries its message.  The second
numeric argument is the number of loop iterations still allowed and the
first is the current attempt index; the loop retries only on a retryable
error when more than one iteration remains.  The returned number counts
the attempts actually made. -/
def withRetryLoop (apiCall : Nat → Except (List Char) α) (lastErr : Option (List Char)) :
    Nat → Nat → Nat × Except (List Char) α
  | i, 0 => (i, .error (lastErr.getD retriesExhaustedMsg))
  | i, r + 1 =>
    match apiCall i with
    | .ok a => (i + 1, .ok a)
    | .error e =>
      if isRetryableError e && r != 0 then withRetryLoop apiCall (some e) (i + 1) r
      else (i + 1, .error e)

/-- The resilient call executor withRetry: run the loop for MAX_RETRIES
iterations, returning the number of attempts made and the final outcome. -/
def withRetry (apiCall : Nat → Except (List Char) α) : Nat × Except (List Char) α :=
  withRetryLoop apiCall none 0 MAX_RETRIES

/-! ## Preprocessing -/

/-- The preprocessing operation on an input text.  The service call outcome
(after its own retry wrapping) is passed as a parameter; the returned flag
records whether the service was invoked at all, and the returned outcome is
the result surfaced to the caller. -/
def preprocessText (text : List Char) (svcResult : Except (List Char) (List Char)) :
    Bool × Except (List Char) (List Char) :=
  if (jsTrim text).length < 50 then (false, .ok text)
  else
    match svcResult with
    | .ok rtext =>
      let processed := jsTrim rtext
      (true, .ok (if processed = [] then text else processed))
    | .error _ => (true, .ok text)

/-! ## Error taxonomy of the streaming operations -/

def serviceBusyMsg : List Char :=
  "The AI service is currently experiencing high traffic. Please try again in a few moments.".data

def generationFailedMsg : List Char :=
  "Failed to generate the resume draft from the AI. The service may be temporarily unavailable.".data

def toneBusyMsg : List Char :=
  "The AI service is currently busy. Please try again in a moment.".data

def toneFailedMsg : List Char :=
  "Failed to change the resume tone. The AI service may be temporarily unavailable.".data

def refineFailedMsg : List Char :=
  "Failed to refine the resume with the AI. The service may be temporarily unavailable.".data

/-- The catch block of the initial draft operation: 429 anywhere in the
message, or RESOURCE_EXHAUSTED case-insensitively, surfaces the busy
message; everything else surfaces the generic generation failure. -/
def generateDraftCatch (msg : List Char) : List Char :=
  if occursIn "429".data msg || occursIn "RESOURCE_EXHAUSTED".data (toUpperAscii msg) then
    serviceBusyMsg
  else generationFailedMsg

/-- The catch block of the tone change operation: only 429 in the message
surfaces the busy message; everything else surfaces the generic tone
change failure. -/
def changeToneCatch (msg : List Char) : List Char :=
  if occursIn "429".data msg then toneBusyMsg else toneFailedMsg

/-- The catch block of the refine operation, matching the initial draft
classification with its own generic message. -/
def refineCatch (msg : List Char) : List Char :=
  if occursIn "429".data msg || occursIn "RESOURCE_EXHAUSTED".data (toUpperAscii msg) then
    serviceBusyMsg
  else refineFailedMsg

/-! ## Grounding source fetch and dedup -/

/-- The web payload of a citation chunk; both fields may be absent at
runtime. -/
structure WebInfo where
  uri : Option (List Char)
  title : Option (List Char)
deriving DecidableEq

/-- A citation chunk as delivered by the service; the web field itself may
be absent at runtime. -/
structure GroundingSource where
  web : Option WebInfo
deriving DecidableEq

/-- The uri of a source when reachable through the optional chain. -/
def sourceUri (s : GroundingSource) : Option (List Char) :=
  match s.web with
  | some w => w.uri
  | none => none

/-- The dedup key expression reads the uri through the web field without an
optional chain, so an absent web field raises a type error. -/
def sourceKey (s : GroundingSource) : Except Unit (Option (List Char)) :=
  match s.web with
  | none => .error ()
  | some w => .ok w.uri

/-- Build the key-value pair list fed into the map constructor, failing at
the first source whose web field is absent. -/
def sourcePairs : List GroundingSource → Except Unit (List (Option (List Char) × GroundingSource))
  | [] => .ok []
  | s :: ss =>
    match sourceKey s with
    | .error e => .error e
    | .ok k => (sourcePairs ss).map (fun ps => (k, s) :: ps)

/-- Insertion into an association list with the JavaScript Map semantics:
an existing key keeps its position and has its value overwritten; a new
key is appended. -/
def jsInsert {K V : Type} [DecidableEq K] (m : List (K × V)) (k : K) (v : V) :
    List (K × V) :=
  if k ∈ m.map Prod.fst then m.map (fun p => if p.1 = k then (k, v) else p)
  else m ++ [(k, v)]

/-- The association list built by the Map constructor from a pair list. -/
def jsMapOfPairs {K V : Type} [DecidableEq K] (ps : List (K × V)) : List (K × V) :=
  ps.foldl (fun m p => jsInsert m p.1 p.2) []

/-- The filter keeping a source whose uri is reachable and truthy: the web
field present, the uri present and not the empty string. -/
def keepSource (s : GroundingSource) : Bool :=
  match s.web with
  | some w =>
    match w.uri with
    | some u => u != []
    | none => false
  | none => false

/-- The dedup-and-filter step of fetchBestPractices: build the pair list
keyed by uri, take the map values in order, and keep only sources with a
truthy uri. -/
def dedupSources (l : List GroundingSource) : Except Unit (List GroundingSource) :=
  (sourcePairs l).map (fun ps => ((jsMapOfPairs ps).map Prod.snd).filter keepSource)

/-- First occurrences of the keys of a list, in order of first appearance. -/
def firstKeys {K : Type} [DecidableEq K] (ks : List K) : List K :=
  ks.foldl (fun acc k => if k ∈ acc then acc else acc ++ [k]) []

/-- Whether a map key survives the final filter: a present, nonempty uri. -/
def goodKey : Option (List Char) → Bool
  | some u => u != []
  | none => false

/-- The last source of a list carrying a given uri, when one exists. -/
def lastWithUri (u : List Char) (l : List GroundingSource) : Option GroundingSource :=
  l.reverse.find? (fun s => decide (sourceUri s = some u))

/-- Lookup in an association list by key, first match wins. -/
def listLookup {K V : Type} [DecidableEq K] : List (K × V) → K → Option V
  | [], _ => none
  | p :: m, k => if p.1 = k then some p.2 else listLookup m k

/-- Maximum of a list of naturals, zero for the empty list. -/
def natMax (ns : List Nat) : Nat := ns.foldl Nat.max 0

/-- Lengths of the formatted views of all prefixes of the increment
sequence, in prefix order, the empty prefix included. -/
def prefixNorms (fmt : List Char → List Char) (chunks : List (List Char)) : List Nat :=
  chunks.inits.map (fun p => (fmt p.flatten).length)

/-! ## Claim C3: retry termination -/

/-- C3: withRetry makes exactly MAX_RETRIES (7) attempts and then surfaces
the last encountered error when every attempt raises a retryable error,
and makes exactly 1 attempt and propagates the error immediately when the
first attempt raises a non-retryable error. -/
theorem withRetry_attempt_counts :
    MAX_RETRIES = 7 ∧
    (∀ (apiCall : Nat → Except (List Char) Nat),
      (∀ i, i < MAX_RETRIES → ∃ e, apiCall i = .error e ∧ isRetryableError e = true) →
      withRetry apiCall = (MAX_RETRIES, apiCall (MAX_RETRIES - 1))) ∧
    (∀ (apiCall : Nat → Except (List Char) Nat) (e : List Char),
      apiCall 0 = .error e → isRetryableError e = false →
      withRetry apiCall = (1, .error e)) := by
  refine ⟨rfl, ?_, ?_⟩
  · intro apiCall h
    obtain ⟨e0, he0, hr0⟩ := h 0 (by decide)
    obtain ⟨e1, he1, hr1⟩ := h 1 (by decide)
    obtain ⟨e2, he2, hr2⟩ := h 2 (by decide)
    obtain ⟨e3, he3, hr3⟩ := h 3 (by decide)
    obtain ⟨e4, he4, hr4⟩ := h 4 (by decide)
    obtain ⟨e5, he5, hr5⟩ := h 5 (by decide)
    obtain ⟨e6, he6, hr6⟩ := h 6 (by decide)
    simp [withRetry, MAX_RETRIES, withRetryLoop,
      he0, hr0, he1, hr1, he2, hr2, he3, hr3, he4, hr4, he5, hr5, he6, hr6]
  · intro apiCall e he hr
    simp [withRetry, MAX_RETRIES, withRetryLoop, he, hr]

/-- Witness for C3 at two concrete calls: one that always fails with a 429
message, one that fails once with a non-retryable message. -/
theorem withRetry_attempt_counts_witness :
    withRetry (fun _ => (Except.error "429".data : Except (List Char) Nat)) =
      (7, Except.error "429".data) ∧
    withRetry (fun _ => (Except.error "boom".data : Except (List Char) Nat)) =
      (1, Except.error "boom".data) := by
  constructor
  · have h := withRetry_attempt_counts.2.1 (fun _ => .error "429".data)
      (fun i _ => ⟨"429".data, rfl, by decide⟩)
    simpa [MAX_RETRIES] using h
  · exact withRetry_attempt_counts.2.2 (fun _ => .error "boom".data) "boom".data rfl
      (by decide)

/-! ## Claim C6: preprocessing short-circuit and error fallback -/

/-- C6: an input whose trimmed length is below 50 is returned unchanged
with no service call; on a longer input, any service failure falls back to
the original text and no error is propagated. -/
theorem preprocessText_short_circuit_and_fallback :
    (∀ (text : List Char) (svc : Except (List Char) (List Char)),
      (jsTrim text).length < 50 → preprocessText text svc = (false, .ok text)) ∧
    (∀ (text e : List Char),
      ¬ (jsTrim text).length < 50 →
      preprocessText text (.error e) = (true, .ok text)) := by
  constructor
  · intro text svc h
    simp [preprocessText, h]
  · intro text e h
    simp [preprocessText, h]

/-- Witness for C6 at a short input with a failing service and at a long
input with a failing service. -/
theorem preprocessText_short_circuit_and_fallback_witness :
    preprocessText "short text".data (.error "x".data) = (false, .ok "short text".data) ∧
    preprocessText
      "this input text is certainly longer than fifty characters in total".data
      (.error "x".data) =
      (true, .ok "this input text is certainly longer than fifty characters in total".data) := by
  constructor
  · exact preprocessText_short_circuit_and_fallback.1 "short text".data _ (by decide)
  · exact preprocessText_short_circuit_and_fallback.2 _ "x".data (by decide)

/-! ## Claim C10: empty service response falls back to the input -/

/-- C10: when the service call succeeds but its trimmed response is empty,
preprocessText returns the original input; consequently the returned text
is nonempty whenever the input is nonempty. -/
theorem preprocessText_nonempty_guarantee :
    (∀ (text r : List Char), jsTrim r = [] →
      (preprocessText text (.ok r)).2 = .ok text) ∧
    (∀ (text : List Char) (svc : Except (List Char) (List Char)), text ≠ [] →
      ∃ out, (preprocessText text svc).2 = .ok out ∧ out ≠ []) := by
  constructor
  · intro text r h
    by_cases hlen : (jsTrim text).length < 50
    · simp [preprocessText, hlen]
    · simp [preprocessText, hlen, h]
  · intro text svc htext
    by_cases hlen : (jsTrim text).length < 50
    · exact ⟨text, by simp [preprocessText, hlen], htext⟩
    · match svc with
      | .error e => exact ⟨text, by simp [preprocessText, hlen], htext⟩
      | .ok r =>
        by_cases hr : jsTrim r = []
        · exact ⟨text, by simp [preprocessText, hlen, hr], htext⟩
        · exact ⟨jsTrim r, by simp [preprocessText, hlen, hr], hr⟩

/-- Witness for C10 at a whitespace-only service response and at a failing
service with a nonempty input. -/
theorem preprocessText_nonempty_guarantee_witness :
    (preprocessText "hi".data (.ok "   ".data)).2 = .ok "hi".data ∧
    (∃ out, (preprocessText "hi".data (.error "x".data)).2 = .ok out ∧ out ≠ []) := by
  constructor
  · exact preprocessText_nonempty_guarantee.1 "hi".data "   ".data (by decide)
  · exact preprocessText_nonempty_guarantee.2 "hi".data (.error "x".data) (by decide)

/-! ## Claim C7: tone change error taxonomy -/

/-- C7 counterexample: an error message indicating resource exhaustion
without 429 is classified as the generic tone change failure by the tone
change catch block, while the initial draft catch block classifies the
same message as service-busy; the taxonomies differ. -/
theorem changeToneCatch_resource_exhausted_counterexample :
    changeToneCatch "RESOURCE_EXHAUSTED".data = toneFailedMsg ∧
    generateDraftCatch "RESOURCE_EXHAUSTED".data = serviceBusyMsg ∧
    toneFailedMsg ≠ toneBusyMsg := by
  refine ⟨?_, ?_, by decide⟩ <;> rfl

/-- C7 amended: the tone change operation surfaces its busy message exactly
when the underlying error message contains 429; any other message,
including resource-exhaustion markers without 429, surfaces the generic
tone change failure. -/
theorem changeToneCatch_classification (msg : List Char) :
    (occursIn "429".data msg = true → changeToneCatch msg = toneBusyMsg) ∧
    (occursIn "429".data msg = false → changeToneCatch msg = toneFailedMsg) := by
  constructor <;> intro h <;> simp [changeToneCatch, h]

/-- Witness for C7 amended at a 429 message and at an unrelated message. -/
theorem changeToneCatch_classification_witness :
    changeToneCatch "error 429 happened".data = toneBusyMsg ∧
    changeToneCatch "something else".data = toneFailedMsg :=
  ⟨(changeToneCatch_classification "error 429 happened".data).1 (by decide),
   (changeToneCatch_classification "something else".data).2 (by decide)⟩

/-! ## Normalizer lemmas -/

/-- The doubled-delimiter pass is the identity on a list not containing the
delimiter character, at any fuel. -/
theorem replaceDoubleF_id (d : Char) :
    ∀ (l : List Char), d ∉ l → ∀ f, replaceDoubleF d f l = l := by
  intro l
  induction l with
  | nil => intro _ f; cases f <;> rfl
  | cons c cs ih =>
    intro h f
    cases f with
    | zero => rfl
    | succ f =>
      have hc : (c == d) = false := by
        simp only [beq_eq_false_iff_ne]
        intro hcd
        exact h (by simp [hcd])
      have hcs : d ∉ cs := fun hd => h (List.mem_cons_of_mem c hd)
      simp [replaceDoubleF, hc, ih hcs f]

/-- The single-asterisk pass is the identity on a list not containing an
asterisk, at any fuel and previous character. -/
theorem replaceStarF_id :
    ∀ (l : List Char), '*' ∉ l → ∀ (f : Nat) (prev : Option Char),
      replaceStarF f prev l = l := by
  intro l
  induction l with
  | nil => intro _ f prev; cases f <;> rfl
  | cons c cs ih =>
    intro h f prev
    cases f with
    | zero => rfl
    | succ f =>
      have hc : (c == '*') = false := by
        simp only [beq_eq_false_iff_ne]
        intro hcd
        exact h (by simp [hcd])
      have hcs : '*' ∉ cs := fun hd => h (List.mem_cons_of_mem c hd)
      simp [replaceStarF, hc, ih hcs f]

/-- The single-underscore pass is the identity on a list not containing an
underscore, at any fuel. -/
theorem replaceUndF_id :
    ∀ (l : List Char), '_' ∉ l → ∀ f, replaceUndF f l = l := by
  intro l
  induction l with
  | nil => intro _ f; cases f <;> rfl
  | cons c cs ih =>
    intro h f
    cases f with
    | zero => rfl
    | succ f =>
      have hc : (c == '_') = false := by
        simp only [beq_eq_false_iff_ne]
        intro hcd
        exact h (by simp [hcd])
      have hcs : '_' ∉ cs := fun hd => h (List.mem_cons_of_mem c hd)
      simp [replaceUndF, hc, ih hcs f]

/-- A line whose trimmed form carries no list marker passes through the
line standardization unchanged. -/
theorem formatLine_id (line : List Char) (h : isListMarkerLine (jsTrim line) = false) :
    formatLine line = line := by
  simp [formatLine, h]

/-- Splitting on line feeds never yields the empty list of lines. -/
theorem splitOnNl_ne_nil : ∀ l : List Char, splitOnNl l ≠ [] := by
  intro l
  cases l with
  | nil => simp [splitOnNl]
  | cons c cs =>
    by_cases hc : c = '\n'
    · simp [splitOnNl, hc]
    · have hc' : (c == '\n') = false := beq_eq_false_iff_ne.mpr hc
      simp only [splitOnNl, hc', Bool.false_eq_true, if_false]
      cases hsp : splitOnNl cs <;> simp

/-- Rejoining the line feed split restores the original list. -/
theorem joinNl_splitOnNl : ∀ l : List Char, joinNl (splitOnNl l) = l := by
  intro l
  induction l with
  | nil => rfl
  | cons c cs ih =>
    by_cases hc : c = '\n'
    · subst hc
      rw [show splitOnNl ('\n' :: cs) = [] :: splitOnNl cs from by simp [splitOnNl]]
      cases hsp : splitOnNl cs with
      | nil => exact absurd hsp (splitOnNl_ne_nil cs)
      | cons m ms =>
        rw [hsp] at ih
        show [] ++ '\n' :: joinNl (m :: ms) = '\n' :: cs
        simp [ih]
    · have hc' : (c == '\n') = false := beq_eq_false_iff_ne.mpr hc
      rw [show splitOnNl (c :: cs) =
          (match splitOnNl cs with | l :: ls => (c :: l) :: ls | [] => [[c]]) from by
        simp [splitOnNl, hc']]
      cases hsp : splitOnNl cs with
      | nil => exact absurd hsp (splitOnNl_ne_nil cs)
      | cons m ms =>
        rw [hsp] at ih
        cases ms with
        | nil =>
          show c :: m = c :: cs
          simp only [joinNl] at ih
          rw [ih]
        | cons m2 ms2 =>
          show (c :: m) ++ '\n' :: joinNl (m2 :: ms2) = c :: cs
          rw [← ih]
          rfl

/-- Mapping a function that fixes every member is the identity. -/
theorem map_id_of_mem {α : Type} (f : α → α) :
    ∀ l : List α, (∀ x ∈ l, f x = x) → l.map f = l := by
  intro l
  induction l with
  | nil => intro _; rfl
  | cons c cs ih =>
    intro h
    simp only [List.map_cons, h c (by simp), ih (fun x hx => h x (by simp [hx]))]

/-- Dropping a satisfied front twice is the same as dropping it once. -/
theorem dropWhile_dropWhile (p : Char → Bool) :
    ∀ l : List Char, (l.dropWhile p).dropWhile p = l.dropWhile p := by
  intro l
  induction l with
  | nil => rfl
  | cons c cs ih =>
    by_cases hc : p c = true
    · simp [List.dropWhile_cons, hc, ih]
    · simp [List.dropWhile_cons, hc]

/-- The head surviving a dropWhile fails the dropped predicate. -/
theorem head?_dropWhile_false (p : Char → Bool) :
    ∀ (l : List Char) (c : Char), (l.dropWhile p).head? = some c → p c = false := by
  intro l
  induction l with
  | nil => intro c h; simp at h
  | cons a as ih =>
    intro c h
    cases hpa : p a with
    | true =>
      rw [List.dropWhile_cons, if_pos hpa] at h
      exact ih c h
    | false =>
      rw [List.dropWhile_cons, if_neg (by simp [hpa])] at h
      simp only [List.head?_cons, Option.some_inj] at h
      exact h ▸ hpa

/-- A list whose head fails the predicate is fixed by dropWhile. -/
theorem dropWhile_eq_self_of_head? (p : Char → Bool) (l : List Char)
    (h : ∀ c, l.head? = some c → p c = false) : l.dropWhile p = l := by
  cases l with
  | nil => rfl
  | cons a as =>
    rw [List.dropWhile_cons, if_neg (by simp [h a rfl])]

/-- A nonempty dropWhile keeps the last element of the original list. -/
theorem getLast?_dropWhile (p : Char → Bool) (l : List Char)
    (h : l.dropWhile p ≠ []) : (l.dropWhile p).getLast? = l.getLast? := by
  obtain ⟨pre, hpre⟩ := l.dropWhile_suffix p
  obtain ⟨c, hc⟩ : ∃ c, (l.dropWhile p).getLast? = some c := by
    cases hx : (l.dropWhile p).getLast? with
    | none => exact absurd (List.getLast?_eq_none_iff.mp hx) h
    | some c => exact ⟨c, rfl⟩
  conv_rhs => rw [← hpre]
  rw [List.getLast?_append, hc]
  rfl

/-- The JavaScript trim is idempotent. -/
theorem jsTrim_idem (l : List Char) : jsTrim (jsTrim l) = jsTrim l := by
  show (((jsTrim l).dropWhile isJsWs).reverse.dropWhile isJsWs).reverse = jsTrim l
  have h1 : (jsTrim l).dropWhile isJsWs = jsTrim l := by
    apply dropWhile_eq_self_of_head?
    intro c hc
    rw [show jsTrim l = ((l.dropWhile isJsWs).reverse.dropWhile isJsWs).reverse from rfl,
      List.head?_reverse] at hc
    have hne : (l.dropWhile isJsWs).reverse.dropWhile isJsWs ≠ [] := by
      intro h0
      rw [h0] at hc
      simp at hc
    rw [getLast?_dropWhile _ _ hne, List.getLast?_reverse] at hc
    exact head?_dropWhile_false _ _ _ hc
  rw [h1]
  show (((l.dropWhile isJsWs).reverse.dropWhile isJsWs).reverse.reverse.dropWhile
    isJsWs).reverse = jsTrim l
  rw [List.reverse_reverse, dropWhile_dropWhile]
  rfl

/-- The normalizer output is already trimmed. -/
theorem jsTrim_formatAIResponse (s : List Char) :
    jsTrim (formatAIResponse s) = formatAIResponse s := by
  by_cases hs : s = []
  · subst hs; rfl
  · show jsTrim (if s = [] then [] else _) = _
    rw [if_neg hs, jsTrim_idem]
    exact (if_neg hs).symm

/-- A trimmed list with no emphasis character and no list-marker line is a
fixed point of the normalizer. -/
theorem formatAIResponse_fixed (t : List Char)
    (hstar : '*' ∉ t) (hund : '_' ∉ t)
    (hlines : ∀ line ∈ splitOnNl t, isListMarkerLine (jsTrim line) = false)
    (htrim : jsTrim t = t) :
    formatAIResponse t = t := by
  by_cases ht : t = []
  · subst ht; rfl
  · show (if t = [] then [] else _) = t
    rw [if_neg ht]
    rw [show replaceDouble '*' t = t from replaceDoubleF_id '*' t hstar _]
    rw [show replaceDouble '_' t = t from replaceDoubleF_id '_' t hund _]
    rw [show replaceStar t = t from replaceStarF_id t hstar _ _]
    rw [show replaceUnd t = t from replaceUndF_id t hund _]
    rw [map_id_of_mem formatLine (splitOnNl t)
      (fun line hline => formatLine_id line (hlines line hline))]
    rw [joinNl_splitOnNl, htrim]

/-! ## Claim C5: normalizer idempotence -/

/-- C5 counterexample: the normalizer is not idempotent; on the input
consisting of a dash bullet whose content is itself a dash bullet, one
application yields a dash bullet line and a second application rewrites it
again. -/
theorem formatAIResponse_not_idempotent :
    formatAIResponse "- - a".data = "- a".data ∧
    formatAIResponse (formatAIResponse "- - a".data) = "a".data ∧
    formatAIResponse (formatAIResponse "- - a".data) ≠ formatAIResponse "- - a".data := by
  refine ⟨by decide, by decide, by decide⟩

/-- C5 amended: the normalizer is idempotent on every input whose
normalized form contains no asterisk, no underscore and no line whose
trimmed form begins with a list marker; re-application can rewrite the
output further only through leftover emphasis characters or list-marker
lines, as in the recorded counterexample. -/
theorem formatAIResponse_idem_of_clean (s : List Char)
    (hstar : '*' ∉ formatAIResponse s) (hund : '_' ∉ formatAIResponse s)
    (hlines : ∀ line ∈ splitOnNl (formatAIResponse s),
      isListMarkerLine (jsTrim line) = false) :
    formatAIResponse (formatAIResponse s) = formatAIResponse s :=
  formatAIResponse_fixed _ hstar hund hlines (jsTrim_formatAIResponse s)

/-- Witness for C5 amended at a concrete two-line input. -/
theorem formatAIResponse_idem_of_clean_witness :
    ('*' ∉ formatAIResponse "hello\n  world".data) ∧
    ('_' ∉ formatAIResponse "hello\n  world".data) ∧
    (∀ line ∈ splitOnNl (formatAIResponse "hello\n  world".data),
      isListMarkerLine (jsTrim line) = false) ∧
    formatAIResponse (formatAIResponse "hello\n  world".data) =
      formatAIResponse "hello\n  world".data :=
  ⟨by decide, by decide, by decide,
    formatAIResponse_idem_of_clean "hello\n  world".data (by decide) (by decide) (by decide)⟩

/-! ## Delimiter splitting lemmas -/

/-- Bridge between the boolean front test and the structural front order. -/
theorem isPrefixOf_true_iff (l1 l2 : List Char) : l1.isPrefixOf l2 = true ↔ l1 <+: l2 :=
  List.isPrefixOf_iff_prefix

/-- The part before the first delimiter occurrence leads the list. -/
theorem beforeFirst_leads (delim : List Char) :
    ∀ s : List Char, beforeFirst delim s <+: s := by
  intro s
  induction s with
  | nil => exact List.prefix_refl _
  | cons c cs ih =>
    show (if delim.isPrefixOf (c :: cs) then [] else c :: beforeFirst delim cs) <+: c :: cs
    by_cases h : delim.isPrefixOf (c :: cs) = true
    · rw [if_pos h]
      exact List.nil_prefix
    · rw [if_neg h]
      exact (List.cons_prefix_cons).mpr ⟨rfl, ih⟩

/-- The part before the first delimiter occurrence never contains the
delimiter itself. -/
theorem beforeFirst_no_delim (delim : List Char) (hd : delim ≠ []) :
    ∀ s : List Char, occursIn delim (beforeFirst delim s) = false := by
  intro s
  induction s with
  | nil =>
    show occursIn delim [] = false
    simpa [occursIn, List.isEmpty_iff] using hd
  | cons c cs ih =>
    show occursIn delim
      (if delim.isPrefixOf (c :: cs) then [] else c :: beforeFirst delim cs) = false
    by_cases h : delim.isPrefixOf (c :: cs) = true
    · rw [if_pos h]
      simpa [occursIn, List.isEmpty_iff] using hd
    · rw [if_neg h]
      show (delim.isPrefixOf (c :: beforeFirst delim cs) ||
        occursIn delim (beforeFirst delim cs)) = false
      rw [ih, Bool.or_false]
      cases hpf : delim.isPrefixOf (c :: beforeFirst delim cs) with
      | false => rfl
      | true =>
        exfalso
        apply h
        apply (isPrefixOf_true_iff _ _).mpr
        exact ((isPrefixOf_true_iff _ _).mp hpf).trans
          ((List.cons_prefix_cons).mpr ⟨rfl, beforeFirst_leads delim cs⟩)

/-- When the delimiter occurs in the list, the part before it followed by
the delimiter leads the list: the split is exact. -/
theorem beforeFirst_split (delim : List Char) :
    ∀ s : List Char, occursIn delim s = true →
      beforeFirst delim s ++ delim <+: s := by
  intro s
  induction s with
  | nil =>
    intro h
    have hd : delim = [] := by simpa [occursIn, List.isEmpty_iff] using h
    simp [beforeFirst, hd]
  | cons c cs ih =>
    intro h
    by_cases hp : delim.isPrefixOf (c :: cs) = true
    · show (if delim.isPrefixOf (c :: cs) then [] else c :: beforeFirst delim cs) ++
        delim <+: c :: cs
      rw [if_pos hp]
      simpa using (isPrefixOf_true_iff _ _).mp hp
    · show (if delim.isPrefixOf (c :: cs) then [] else c :: beforeFirst delim cs) ++
        delim <+: c :: cs
      rw [if_neg hp]
      have hcs : occursIn delim cs = true := by
        have hh : (delim.isPrefixOf (c :: cs) || occursIn delim cs) = true := h
        rcases Bool.or_eq_true_iff.mp hh with h1 | h2
        · exact absurd h1 hp
        · exact h2
      show c :: (beforeFirst delim cs ++ delim) <+: c :: cs
      exact (List.cons_prefix_cons).mpr ⟨rfl, ih hcs⟩

/-! ## Claim C2: delimiter withholding during refine streaming -/

/-- C2 counterexample: a raw increment not containing the changelog
delimiter can normalize to text containing the full delimiter, which is
then passed to the chunk callback of the refine streaming loop. -/
theorem refineStream_leaks_delimiter :
    (refineStream ["x---CHANGELOG--**-**".data]).chunksOut = ["x---CHANGELOG---".data] ∧
    occursIn changelogDelimiter "x---CHANGELOG---".data = true ∧
    occursIn changelogDelimiter "x---CHANGELOG--**-**".data = false := by
  refine ⟨by decide, by decide, by decide⟩

/-- C2 amended: at every point of the refine stream, the text normalized
for emission is the resume part of the raw buffer, which never contains
the changelog delimiter; when the buffer contains the delimiter the resume
part is exactly the portion strictly before its first occurrence.  Chunks
can still carry delimiter text produced by normalization, or partial
delimiter text, while the delimiter is absent from the raw buffer, as in
the recorded counterexample. -/
theorem resumePartOf_withholds_delimiter (s : List Char) :
    occursIn changelogDelimiter (resumePartOf s) = false ∧
    (occursIn changelogDelimiter s = true →
      resumePartOf s ++ changelogDelimiter <+: s) := by
  constructor
  · by_cases h : occursIn changelogDelimiter s = true
    · rw [resumePartOf, if_pos h]
      exact beforeFirst_no_delim changelogDelimiter (by decide) s
    · rw [resumePartOf, if_neg h]
      exact Bool.not_eq_true _ |>.mp h
  · intro h
    rw [resumePartOf, if_pos h]
    exact beforeFirst_split changelogDelimiter s h

/-- Witness for C2 amended at a buffer containing the delimiter. -/
theorem resumePartOf_withholds_delimiter_witness :
    occursIn changelogDelimiter "ab---CHANGELOG---cd".data = true ∧
    occursIn changelogDelimiter (resumePartOf "ab---CHANGELOG---cd".data) = false ∧
    resumePartOf "ab---CHANGELOG---cd".data ++ changelogDelimiter <+:
      "ab---CHANGELOG---cd".data :=
  ⟨by decide, (resumePartOf_withholds_delimiter "ab---CHANGELOG---cd".data).1,
    (resumePartOf_withholds_delimiter "ab---CHANGELOG---cd".data).2 (by decide)⟩

/-! ## Streaming fold lemmas -/

/-- Unfolding the streaming loop at its last increment. -/
theorem runStream_append_one (fmt : List Char → List Char) (cs : List (List Char))
    (c : List Char) : runStream fmt (cs ++ [c]) = streamStep fmt (runStream fmt cs) c := by
  simp [runStream, List.foldl_append]

/-- The raw buffer of the streaming loop is the concatenation of all
increments received. -/
theorem runStream_fullRawText (fmt : List Char → List Char) :
    ∀ cs : List (List Char), (runStream fmt cs).fullRawText = cs.flatten := by
  intro cs
  induction cs using List.reverseRecOn with
  | nil => rfl
  | append_singleton cs c ih =>
    rw [runStream_append_one, streamStep]
    by_cases hc : c = []
    · rw [if_pos hc]
      simp [ih, hc]
    · rw [if_neg hc]
      by_cases hlen : (runStream fmt cs).lastSent.length <
          (fmt ((runStream fmt cs).fullRawText ++ c)).length
      · rw [if_pos hlen]
        simp [ih, List.flatten_append]
      · rw [if_neg hlen]
        simp [ih, List.flatten_append]

/-- An accumulator bounds a maximum fold from below. -/
theorem le_foldl_max (ns : List Nat) : ∀ acc, acc ≤ ns.foldl Nat.max acc := by
  induction ns with
  | nil => intro acc; exact Nat.le_refl _
  | cons n ns ih =>
    intro acc
    exact le_trans (Nat.le_max_left acc n) (ih (Nat.max acc n))

/-- Every member bounds a maximum fold from below. -/
theorem mem_le_foldl_max (ns : List Nat) : ∀ (acc a : Nat), a ∈ ns → a ≤ ns.foldl Nat.max acc := by
  induction ns with
  | nil => intro _ a h; cases h
  | cons n ns ih =>
    intro acc a h
    rcases List.mem_cons.mp h with rfl | h2
    · exact le_trans (Nat.le_max_right acc a) (le_foldl_max ns _)
    · exact ih _ a h2

/-- The maximum of a list extended by one element. -/
theorem natMax_append_one (ns : List Nat) (a : Nat) :
    natMax (ns ++ [a]) = Nat.max (natMax ns) a := by
  simp [natMax, List.foldl_append]

/-- Members are below the list maximum. -/
theorem le_natMax_of_mem {ns : List Nat} {a : Nat} (h : a ∈ ns) : a ≤ natMax ns :=
  mem_le_foldl_max ns 0 a h

/-- The prefix view lengths of a sequence extended by one increment. -/
theorem prefixNorms_append_one (fmt : List Char → List Char) (cs : List (List Char))
    (c : List Char) :
    prefixNorms fmt (cs ++ [c]) = prefixNorms fmt cs ++ [(fmt (cs.flatten ++ c)).length] := by
  simp [prefixNorms, List.inits_append, List.flatten_append]

/-- The view length of the whole sequence appears among the prefix view
lengths. -/
theorem fmt_flatten_mem_prefixNorms (fmt : List Char → List Char) (cs : List (List Char)) :
    (fmt cs.flatten).length ∈ prefixNorms fmt cs :=
  List.mem_map_of_mem _ ((List.mem_inits _ _).mpr (List.prefix_refl _))

/-- The length of the last sent text equals the maximum view length over
all prefixes of the increment sequence. -/
theorem runStream_lastSent_max (fmt : List Char → List Char) (hfmt : fmt [] = []) :
    ∀ cs, (runStream fmt cs).lastSent.length = natMax (prefixNorms fmt cs) := by
  intro cs
  induction cs using List.reverseRecOn with
  | nil =>
    show (0 : Nat) = natMax (prefixNorms fmt [])
    simp [prefixNorms, natMax, hfmt]
  | append_singleton cs c ih =>
    rw [runStream_append_one, prefixNorms_append_one, natMax_append_one, streamStep]
    by_cases hc : c = []
    · rw [if_pos hc]
      have hmem : (fmt (cs.flatten ++ c)).length ≤ natMax (prefixNorms fmt cs) := by
        subst hc
        rw [List.append_nil]
        exact le_natMax_of_mem (fmt_flatten_mem_prefixNorms fmt cs)
      rw [ih]
      exact (Nat.max_eq_left hmem).symm
    · rw [if_neg hc, runStream_fullRawText]
      by_cases hlen : (runStream fmt cs).lastSent.length < (fmt (cs.flatten ++ c)).length
      · rw [if_pos hlen]
        show (fmt (cs.flatten ++ c)).length = _
        rw [ih] at hlen
        exact (Nat.max_eq_right (Nat.le_of_lt hlen)).symm
      · rw [if_neg hlen]
        rw [ih] at hlen
        show (runStream fmt cs).lastSent.length = _
        rw [ih]
        exact (Nat.max_eq_left (Nat.le_of_not_lt hlen)).symm

/-- Under the prefix chain hypothesis, the emission record equals the last
sent text, which always leads the chain bound. -/
theorem runStream_emitted_chain (fmt : List Char → List Char) (F : List Char) :
    ∀ cs, (∀ p ∈ cs.inits, fmt p.flatten <+: F) →
      (runStream fmt cs).emitted = (runStream fmt cs).lastSent ∧
      (runStream fmt cs).lastSent <+: F := by
  intro cs
  induction cs using List.reverseRecOn with
  | nil => intro _; exact ⟨rfl, List.nil_prefix⟩
  | append_singleton cs c ih =>
    intro h
    have hcs := ih (fun p hp => h p ((List.mem_inits _ _).mpr
      (((List.mem_inits _ _).mp hp).trans (List.prefix_append cs [c]))))
    rw [runStream_append_one, streamStep]
    by_cases hc : c = []
    · rw [if_pos hc]; exact hcs
    · rw [if_neg hc]
      by_cases hlen : (runStream fmt cs).lastSent.length <
          (fmt ((runStream fmt cs).fullRawText ++ c)).length
      · rw [if_pos hlen]
        have hfull : (runStream fmt cs).fullRawText ++ c = (cs ++ [c]).flatten := by
          rw [runStream_fullRawText]
          simp [List.flatten_append]
        have hF : fmt ((runStream fmt cs).fullRawText ++ c) <+: F := by
          rw [hfull]
          exact h _ ((List.mem_inits _ _).mpr (List.prefix_refl _))
        have hls : (runStream fmt cs).lastSent <+:
            fmt ((runStream fmt cs).fullRawText ++ c) :=
          List.prefix_of_prefix_length_le hcs.2 hF (Nat.le_of_lt hlen)
        obtain ⟨t, ht⟩ := hls
        refine ⟨?_, hF⟩
        show (runStream fmt cs).emitted ++ _ = _
        rw [hcs.1, ← ht, List.drop_left]
      · rw [if_neg hlen]
        exact hcs

/-! ## Claim C8: reconciler length invariant -/

/-- C8 counterexample: after the increments ab, a double asterisk, and the
completion of the emphasis pair, the length of the text sent so far
exceeds the length of the normalized raw buffer, so the claimed bound
fails at this observation point. -/
theorem generate_lastSent_exceeds_final_norm :
    ¬ ((runStream formatAIResponse ["ab".data, "**".data, "x**".data]).lastSent.length ≤
      (formatAIResponse
        (runStream formatAIResponse ["ab".data, "**".data, "x**".data]).fullRawText).length) := by
  decide

/-- C8 amended: at every observation point, the length of the text emitted
so far equals the maximum of the normalized lengths over all prefixes of
the raw text received so far; it can therefore exceed the normalized
length of the current full raw buffer when normalization shrinks the
buffer, as in the recorded counterexample. -/
theorem generate_lastSent_length_eq_max (chunks : List (List Char)) :
    (runStream formatAIResponse chunks).lastSent.length =
      natMax (prefixNorms formatAIResponse chunks) :=
  runStream_lastSent_max formatAIResponse rfl chunks

/-! ## Claim C1: streaming suffix reconstruction -/

/-- C1 counterexample: for the partition of the raw string into an opening
asterisk followed by the rest, the concatenation of the emitted chunks
differs from the normalized trimmed raw string, because normalization
shrank the buffer after the first emission. -/
theorem generate_emitted_ne_final :
    (runStream formatAIResponse ["*".data, "a*".data]).emitted = "*".data ∧
    formatAIResponse (jsTrim (["*".data, "a*".data]).flatten) = "a".data ∧
    (runStream formatAIResponse ["*".data, "a*".data]).emitted ≠
      formatAIResponse (jsTrim (["*".data, "a*".data]).flatten) := by
  refine ⟨by decide, by decide, by decide⟩

/-- C1 amended: the concatenation of all emitted chunks equals the final
draft text, the normalized trimmed raw string, for every partition in
which the normalized buffer of each increment prefix leads the normalized
full raw string and trimming the raw string does not change its
normalization; without the chain condition the equality can fail, as in
the recorded counterexample. -/
theorem generate_emitted_eq_final_of_chain (chunks : List (List Char))
    (hchain : ∀ p ∈ chunks.inits,
      formatAIResponse p.flatten <+: formatAIResponse chunks.flatten)
    (htrim : formatAIResponse (jsTrim chunks.flatten) = formatAIResponse chunks.flatten) :
    (runStream formatAIResponse chunks).emitted = formatAIResponse (jsTrim chunks.flatten) ∧
    ∀ t, (generateInitialResumeDraft chunks).2 = .ok t →
      (generateInitialResumeDraft chunks).1.emitted = t := by
  have hmain : (runStream formatAIResponse chunks).emitted =
      formatAIResponse chunks.flatten := by
    obtain ⟨hem, hpre⟩ := runStream_emitted_chain formatAIResponse
      (formatAIResponse chunks.flatten) chunks hchain
    have hlen : (formatAIResponse chunks.flatten).length ≤
        (runStream formatAIResponse chunks).lastSent.length := by
      rw [runStream_lastSent_max formatAIResponse rfl chunks]
      exact le_natMax_of_mem (fmt_flatten_mem_prefixNorms _ _)
    have heq : (runStream formatAIResponse chunks).lastSent =
        formatAIResponse chunks.flatten :=
      hpre.eq_of_length (Nat.le_antisymm hpre.length_le hlen)
    rw [hem, heq]
  constructor
  · rw [hmain, htrim]
  · intro t ht
    show (runStream formatAIResponse chunks).emitted = t
    rw [show (generateInitialResumeDraft chunks).2 =
        (if formatAIResponse (jsTrim (runStream formatAIResponse chunks).fullRawText) = []
          then .error emptyResponseMsg
          else .ok (formatAIResponse
            (jsTrim (runStream formatAIResponse chunks).fullRawText))) from rfl,
      runStream_fullRawText] at ht
    by_cases hempty : formatAIResponse (jsTrim chunks.flatten) = []
    · rw [if_pos hempty] at ht
      cases ht
    · rw [if_neg hempty] at ht
      cases ht
      rw [hmain, htrim]

/-- Witness for C1 amended at a two-increment partition whose normalized
prefixes form a chain. -/
theorem generate_emitted_eq_final_of_chain_witness :
    (∀ p ∈ (["he".data, "llo".data] : List (List Char)).inits,
      formatAIResponse p.flatten <+:
        formatAIResponse (["he".data, "llo".data] : List (List Char)).flatten) ∧
    formatAIResponse (jsTrim (["he".data, "llo".data] : List (List Char)).flatten) =
      formatAIResponse (["he".data, "llo".data] : List (List Char)).flatten ∧
    (runStream formatAIResponse ["he".data, "llo".data]).emitted =
      formatAIResponse (jsTrim (["he".data, "llo".data] : List (List Char)).flatten) :=
  ⟨by decide, by decide,
    (generate_emitted_eq_final_of_chain ["he".data, "llo".data] (by decide) (by decide)).1⟩

/-! ## Association list lemmas for the source dedup -/

/-- The final filter test coincides with the goodness of the uri reached
through the optional chain. -/
theorem keepSource_eq_goodKey (s : GroundingSource) :
    keepSource s = goodKey (sourceUri s) := by
  rcases s with ⟨_ | ⟨_ | u, t⟩⟩ <;> rfl

/-- On a list of sources all carrying a web field, the pair construction
succeeds and keys every source by its uri. -/
theorem sourcePairs_ok (l : List GroundingSource) (hw : ∀ s ∈ l, s.web ≠ none) :
    sourcePairs l = .ok (l.map (fun s => (sourceUri s, s))) := by
  induction l with
  | nil => rfl
  | cons s ss ih =>
    have hs := hw s (by simp)
    rcases hweb : s.web with _ | w
    · exact absurd hweb hs
    · have hk : sourceKey s = Except.ok (sourceUri s) := by
        rw [sourceKey, sourceUri, hweb]
      simp only [sourcePairs, hk, ih (fun x hx => hw x (by simp [hx])), Except.map,
        List.map_cons]

/-- Keys of a map insertion: position preserved on overwrite, appended on
a new key. -/
theorem jsInsert_keys {K V : Type} [DecidableEq K] (m : List (K × V)) (k : K) (v : V) :
    (jsInsert m k v).map Prod.fst =
      if k ∈ m.map Prod.fst then m.map Prod.fst else m.map Prod.fst ++ [k] := by
  rw [jsInsert]
  by_cases hk : k ∈ m.map Prod.fst
  · rw [if_pos hk, if_pos hk, List.map_map]
    apply List.map_congr_left
    intro p _
    by_cases hp : p.1 = k
    · simp [Function.comp, hp]
    · simp [Function.comp, hp]
  · rw [if_neg hk, if_neg hk]
    simp

/-- Replacing the value at one key leaves lookup at other keys unchanged. -/
theorem listLookup_map_replace_ne {K V : Type} [DecidableEq K] (m : List (K × V))
    (k k' : K) (v : V) (h : k' ≠ k) :
    listLookup (m.map (fun p => if p.1 = k then (k, v) else p)) k' = listLookup m k' := by
  induction m with
  | nil => rfl
  | cons p ps ih =>
    by_cases hp : p.1 = k
    · simp only [List.map_cons, if_pos hp, listLookup]
      rw [if_neg (fun hkk => h hkk.symm), if_neg (fun hkk => h (hp ▸ hkk).symm), ih]
    · simp only [List.map_cons, if_neg hp, listLookup]
      by_cases hpk : p.1 = k'
      · rw [if_pos hpk, if_pos hpk]
      · rw [if_neg hpk, if_neg hpk, ih]

/-- Replacing the value at a present key makes lookup at that key return
the new value. -/
theorem listLookup_map_replace_eq {K V : Type} [DecidableEq K] (m : List (K × V))
    (k : K) (v : V) (h : k ∈ m.map Prod.fst) :
    listLookup (m.map (fun p => if p.1 = k then (k, v) else p)) k = some v := by
  induction m with
  | nil => cases h
  | cons p ps ih =>
    by_cases hp : p.1 = k
    · simp only [List.map_cons, if_pos hp, listLookup]
      simp
    · simp only [List.map_cons, if_neg hp, listLookup]
      rw [List.map_cons] at h
      rcases List.mem_cons.mp h with h1 | h2
      · exact absurd h1.symm hp
      · exact ih h2

/-- Lookup misses every absent key. -/
theorem listLookup_none {K V : Type} [DecidableEq K] (m : List (K × V)) (k : K)
    (h : k ∉ m.map Prod.fst) : listLookup m k = none := by
  induction m with
  | nil => rfl
  | cons p ps ih =>
    show (if p.1 = k then some p.2 else listLookup ps k) = none
    rw [if_neg (fun hp => h (by simp [hp]))]
    exact ih (fun hk => h (by simp [hk]))

/-- Lookup distributes over append through the option choice. -/
theorem listLookup_append {K V : Type} [DecidableEq K] (m m' : List (K × V)) (k : K) :
    listLookup (m ++ m') k = (listLookup m k).or (listLookup m' k) := by
  induction m with
  | nil => rfl
  | cons p ps ih =>
    show (if p.1 = k then some p.2 else listLookup (ps ++ m') k) = _
    by_cases hp : p.1 = k
    · rw [if_pos hp]
      show _ = Option.or (if p.1 = k then some p.2 else listLookup ps k) _
      rw [if_pos hp]
      rfl
    · rw [if_neg hp, ih]
      show _ = Option.or (if p.1 = k then some p.2 else listLookup ps k) _
      rw [if_neg hp]

/-- Lookup after a map insertion. -/
theorem listLookup_jsInsert {K V : Type} [DecidableEq K] (m : List (K × V))
    (k k' : K) (v : V) :
    listLookup (jsInsert m k v) k' = if k' = k then some v else listLookup m k' := by
  rw [jsInsert]
  by_cases hk : k ∈ m.map Prod.fst
  · rw [if_pos hk]
    by_cases hkk : k' = k
    · subst hkk
      rw [if_pos rfl]
      exact listLookup_map_replace_eq m k' v hk
    · rw [if_neg hkk]
      exact listLookup_map_replace_ne m k k' v hkk
  · rw [if_neg hk, listLookup_append]
    by_cases hkk : k' = k
    · subst hkk
      rw [if_pos rfl, listLookup_none m k' hk]
      show Option.or none (if k' = k' then some v else none) = some v
      rw [if_pos rfl]
      rfl
    · rw [if_neg hkk]
      have h1 : listLookup [(k, v)] k' = none := by
        show (if k = k' then some v else none) = none
        rw [if_neg (fun hkk2 => hkk hkk2.symm)]
      rw [h1]
      cases listLookup m k' <;> rfl

/-- The map construction folded over one more pair. -/
theorem jsMapOfPairs_append_one {K V : Type} [DecidableEq K] (ps : List (K × V))
    (q : K × V) : jsMapOfPairs (ps ++ [q]) = jsInsert (jsMapOfPairs ps) q.1 q.2 := by
  simp [jsMapOfPairs, List.foldl_append]

/-- First-occurrence keys extended by one key. -/
theorem firstKeys_append_one {K : Type} [DecidableEq K] (ks : List K) (k : K) :
    firstKeys (ks ++ [k]) =
      if k ∈ firstKeys ks then firstKeys ks else firstKeys ks ++ [k] := by
  simp [firstKeys, List.foldl_append]

/-- The keys of the constructed map are the first occurrences of the pair
keys, in first-seen order. -/
theorem jsMapOfPairs_keys {K V : Type} [DecidableEq K] (ps : List (K × V)) :
    (jsMapOfPairs ps).map Prod.fst = firstKeys (ps.map Prod.fst) := by
  induction ps using List.reverseRecOn with
  | nil => rfl
  | append_singleton ps q ih =>
    rw [jsMapOfPairs_append_one, jsInsert_keys, ih, List.map_append, List.map_cons,
      List.map_nil, firstKeys_append_one]

/-- First-occurrence keys never repeat. -/
theorem firstKeys_nodup {K : Type} [DecidableEq K] (ks : List K) :
    (firstKeys ks).Nodup := by
  suffices h : ∀ (ks : List K) (acc : List K), acc.Nodup →
      (ks.foldl (fun acc k => if k ∈ acc then acc else acc ++ [k]) acc).Nodup by
    exact h ks [] List.nodup_nil
  intro ks
  induction ks with
  | nil => intro acc hacc; exact hacc
  | cons k ks ih =>
    intro acc hacc
    show (ks.foldl _ (if k ∈ acc then acc else acc ++ [k])).Nodup
    apply ih
    by_cases hk : k ∈ acc
    · rwa [if_pos hk]
    · rw [if_neg hk]
      rw [List.nodup_append]
      exact ⟨hacc, List.nodup_singleton k,
        fun a ha hb => hk ((List.mem_singleton.mp hb) ▸ ha)⟩

/-- Lookup in the constructed map returns the value of the last pair
carrying the key. -/
theorem jsMapOfPairs_lookup {K V : Type} [DecidableEq K] (ps : List (K × V)) (k : K) :
    listLookup (jsMapOfPairs ps) k = listLookup ps.reverse k := by
  induction ps using List.reverseRecOn with
  | nil => rfl
  | append_singleton ps q ih =>
    rw [jsMapOfPairs_append_one, listLookup_jsInsert, ih,
      show (ps ++ [q]).reverse = q :: ps.reverse from by simp]
    show _ = (if q.1 = k then some q.2 else listLookup ps.reverse k)
    by_cases hk : k = q.1
    · rw [if_pos hk, if_pos hk.symm]
    · rw [if_neg hk, if_neg (fun h => hk h.symm)]

/-- Every pair of the constructed map comes from the input pair list. -/
theorem jsMapOfPairs_mem {K V : Type} [DecidableEq K] (ps : List (K × V)) (p : K × V)
    (h : p ∈ jsMapOfPairs ps) : p ∈ ps := by
  suffices haux : ∀ (ps : List (K × V)) (m : List (K × V)),
      p ∈ ps.foldl (fun m q => jsInsert m q.1 q.2) m → p ∈ m ∨ p ∈ ps by
    rcases haux ps [] h with h1 | h2
    · cases h1
    · exact h2
  intro ps
  induction ps with
  | nil => intro m hm; exact Or.inl hm
  | cons q qs ih =>
    intro m hm
    rcases ih (jsInsert m q.1 q.2) hm with h1 | h2
    · rw [jsInsert] at h1
      by_cases hq : q.1 ∈ m.map Prod.fst
      · rw [if_pos hq] at h1
        obtain ⟨p0, hp0, hrep⟩ := List.mem_map.mp h1
        by_cases hp0k : p0.1 = q.1
        · rw [if_pos hp0k] at hrep
          right
          rw [← hrep]
          exact List.mem_cons_self _ _
        · rw [if_neg hp0k] at hrep
          exact Or.inl (hrep ▸ hp0)
      · rw [if_neg hq] at h1
        rcases List.mem_append.mp h1 with h3 | h4
        · exact Or.inl h3
        · right
          rw [List.mem_singleton.mp h4]
          exact List.mem_cons_self _ _
    · exact Or.inr (List.mem_cons_of_mem q h2)

/-- With distinct keys, filtering an association list at one key yields
exactly the pair found by lookup. -/
theorem filter_key_of_nodup {K V : Type} [DecidableEq K] (m : List (K × V)) (k : K)
    (h : (m.map Prod.fst).Nodup) :
    m.filter (fun p => decide (p.1 = k)) =
      (match listLookup m k with | some v => [(k, v)] | none => []) := by
  induction m with
  | nil => rfl
  | cons p ps ih =>
    rw [List.map_cons, List.nodup_cons] at h
    by_cases hp : p.1 = k
    · rw [List.filter_cons_of_pos (by simp [hp])]
      rw [show listLookup (p :: ps) k = some p.2 from by simp [listLookup, hp]]
      have hempty : ps.filter (fun q => decide (q.1 = k)) = [] := by
        rw [List.filter_eq_nil_iff]
        intro a ha
        simp only [decide_eq_true_eq]
        intro hak
        exact h.1 ((hak.trans hp.symm) ▸ List.mem_map_of_mem Prod.fst ha)
      rw [hempty]
      show p :: [] = [(k, p.2)]
      rw [show (k, p.2) = p from by rw [← hp]]
    · rw [List.filter_cons_of_neg (by simp [hp])]
      rw [show listLookup (p :: ps) k = listLookup ps k from by simp [listLookup, hp]]
      exact ih h.2

/-- Lookup over uri-keyed pairs is search for the source by uri. -/
theorem listLookup_pairs_find {K : Type} [DecidableEq K] (key : GroundingSource → K)
    (xs : List GroundingSource) (k : K) :
    listLookup (xs.map (fun s => (key s, s))) k = xs.find? (fun s => decide (key s = k)) := by
  induction xs with
  | nil => rfl
  | cons s ss ih =>
    show (if key s = k then some s else listLookup (ss.map _) k) = _
    by_cases hs : key s = k
    · rw [if_pos hs, List.find?_cons_of_pos _ (by simp [hs])]
    · rw [if_neg hs, List.find?_cons_of_neg _ (by simp [hs]), ih]

/-! ## Claim C9: dedup totality and uri filtering -/

/-- C9 counterexample: a citation entry whose web field is absent makes the
dedup step fail with a type error, because the key expression reads the
uri through the web field without an optional chain. -/
theorem dedupSources_fails_on_missing_web :
    dedupSources [⟨none⟩] = .error () := rfl

/-- C9 amended: on every input whose entries all carry a web field (the
uri itself may be absent or empty), the dedup-and-filter step completes
without failure and every returned entry has a present, nonempty uri; an
entry with an absent web field instead raises a type error, as in the
recorded counterexample. -/
theorem dedupSources_web_total_and_filtered (l : List GroundingSource)
    (hw : ∀ s ∈ l, s.web ≠ none) :
    ∃ out, dedupSources l = .ok out ∧
      ∀ s ∈ out, ∃ w u, s.web = some w ∧ w.uri = some u ∧ u ≠ [] := by
  refine ⟨((jsMapOfPairs (l.map fun s => (sourceUri s, s))).map Prod.snd).filter keepSource,
    ?_, ?_⟩
  · rw [dedupSources, sourcePairs_ok l hw]
    rfl
  · intro s hs
    have hk : keepSource s = true := List.of_mem_filter hs
    rw [keepSource_eq_goodKey] at hk
    rcases hweb : s.web with _ | w
    · rw [show sourceUri s = none from by simp [sourceUri, hweb]] at hk
      cases hk
    · rcases huri : w.uri with _ | u
      · rw [show sourceUri s = none from by simp [sourceUri, hweb, huri]] at hk
        cases hk
      · refine ⟨w, u, rfl, huri, ?_⟩
        rw [show sourceUri s = some u from by simp [sourceUri, hweb, huri]] at hk
        simpa [goodKey] using hk

/-- Witness for C9 amended at a list containing entries with an absent
uri and with an empty uri. -/
theorem dedupSources_web_total_and_filtered_witness :
    (∀ s ∈ ([⟨some ⟨some "a".data, some "t".data⟩⟩, ⟨some ⟨none, none⟩⟩,
        ⟨some ⟨some [], some "x".data⟩⟩] : List GroundingSource), s.web ≠ none) ∧
    (∃ out, dedupSources ([⟨some ⟨some "a".data, some "t".data⟩⟩, ⟨some ⟨none, none⟩⟩,
        ⟨some ⟨some [], some "x".data⟩⟩] : List GroundingSource) = .ok out ∧
      ∀ s ∈ out, ∃ w u, s.web = some w ∧ w.uri = some u ∧ u ≠ []) :=
  ⟨by decide, dedupSources_web_total_and_filtered _ (by decide)⟩

/-! ## Claim C4: dedup keeps first position but the last value -/

/-- C4 counterexample: two entries sharing a uri but differing in title
dedup to a single entry retaining the last-seen title, not the first-seen
title as claimed. -/
theorem dedupSources_keeps_last_title :
    dedupSources [⟨some ⟨some "u".data, some "A".data⟩⟩,
        ⟨some ⟨some "u".data, some "B".data⟩⟩] =
      .ok [⟨some ⟨some "u".data, some "B".data⟩⟩] ∧
    (⟨some ⟨some "u".data, some "B".data⟩⟩ : GroundingSource) ≠
      ⟨some ⟨some "u".data, some "A".data⟩⟩ := by
  refine ⟨rfl, by decide⟩

/-- C4 amended: on every input whose entries all carry a web field, the
dedup keeps exactly one entry per distinct truthy uri, positioned at the
first occurrence of that uri, retaining the last-seen entry and hence the
last-seen title; entries with an empty or absent uri are excluded and no
two returned entries share a uri. -/
theorem dedupSources_first_position_last_value (l : List GroundingSource)
    (hw : ∀ s ∈ l, s.web ≠ none) :
    ∃ out, dedupSources l = .ok out ∧
      out.map sourceUri = (firstKeys (l.map sourceUri)).filter goodKey ∧
      (out.map sourceUri).Nodup ∧
      ∀ u : List Char, u ≠ [] →
        out.filter (fun s => decide (sourceUri s = some u)) = (lastWithUri u l).toList := by
  have hpair : ∀ p ∈ jsMapOfPairs (l.map fun s => (sourceUri s, s)),
      p.1 = sourceUri p.2 := by
    intro p hp
    obtain ⟨s, hs, hps⟩ := List.mem_map.mp (jsMapOfPairs_mem _ p hp)
    rw [← hps]
  have hkeys : (jsMapOfPairs (l.map fun s => (sourceUri s, s))).map Prod.fst =
      firstKeys (l.map sourceUri) := by
    rw [jsMapOfPairs_keys, List.map_map]
    rw [show l.map (Prod.fst ∘ fun s => (sourceUri s, s)) = l.map sourceUri from
      List.map_congr_left (fun s _ => rfl)]
  have hnodupkeys : ((jsMapOfPairs (l.map fun s => (sourceUri s, s))).map Prod.fst).Nodup := by
    rw [hkeys]
    exact firstKeys_nodup _
  have hout : dedupSources l =
      .ok (((jsMapOfPairs (l.map fun s => (sourceUri s, s))).map Prod.snd).filter
        keepSource) := by
    rw [dedupSources, sourcePairs_ok l hw]
    rfl
  have hA : (((jsMapOfPairs (l.map fun s => (sourceUri s, s))).map Prod.snd).filter
      keepSource).map sourceUri = (firstKeys (l.map sourceUri)).filter goodKey := by
    calc (((jsMapOfPairs (l.map fun s => (sourceUri s, s))).map Prod.snd).filter
            keepSource).map sourceUri
        = (((jsMapOfPairs (l.map fun s => (sourceUri s, s))).filter
            (keepSource ∘ Prod.snd)).map Prod.snd).map sourceUri := by
          rw [List.filter_map]
      _ = ((jsMapOfPairs (l.map fun s => (sourceUri s, s))).filter
            (keepSource ∘ Prod.snd)).map (sourceUri ∘ Prod.snd) := by
          rw [List.map_map]
      _ = ((jsMapOfPairs (l.map fun s => (sourceUri s, s))).filter
            (goodKey ∘ Prod.fst)).map (sourceUri ∘ Prod.snd) := by
          have hfc : ∀ p ∈ jsMapOfPairs (l.map fun s => (sourceUri s, s)),
              (keepSource ∘ Prod.snd) p = (goodKey ∘ Prod.fst) p := by
            intro p hp
            show keepSource p.2 = goodKey p.1
            rw [keepSource_eq_goodKey, ← hpair p hp]
          rw [List.filter_congr hfc]
      _ = ((jsMapOfPairs (l.map fun s => (sourceUri s, s))).filter
            (goodKey ∘ Prod.fst)).map Prod.fst := by
          apply List.map_congr_left
          intro p hp
          show sourceUri p.2 = p.1
          rw [← hpair p (List.mem_of_mem_filter hp)]
      _ = ((jsMapOfPairs (l.map fun s => (sourceUri s, s))).map Prod.fst).filter
            goodKey := by
          rw [List.filter_map]
      _ = (firstKeys (l.map sourceUri)).filter goodKey := by
          rw [hkeys]
  refine ⟨((jsMapOfPairs (l.map fun s => (sourceUri s, s))).map Prod.snd).filter keepSource,
    hout, hA, ?_, ?_⟩
  · rw [hA]
    exact (firstKeys_nodup _).filter _
  · intro u hu
    calc (((jsMapOfPairs (l.map fun s => (sourceUri s, s))).map Prod.snd).filter
            keepSource).filter (fun s => decide (sourceUri s = some u))
        = ((jsMapOfPairs (l.map fun s => (sourceUri s, s))).map Prod.snd).filter
            (fun s => decide (sourceUri s = some u) && keepSource s) :=
          List.filter_filter keepSource _
      _ = ((jsMapOfPairs (l.map fun s => (sourceUri s, s))).map Prod.snd).filter
            (fun s => decide (sourceUri s = some u)) := by
          apply List.filter_congr
          intro s _
          by_cases hq : sourceUri s = some u
          · have hkeep : keepSource s = true := by
              rw [keepSource_eq_goodKey, hq]
              show (u != []) = true
              exact bne_iff_ne.mpr hu
            simp [hq, hkeep]
          · simp [hq]
      _ = ((jsMapOfPairs (l.map fun s => (sourceUri s, s))).filter
            ((fun s => decide (sourceUri s = some u)) ∘ Prod.snd)).map Prod.snd := by
          rw [List.filter_map]
      _ = ((jsMapOfPairs (l.map fun s => (sourceUri s, s))).filter
            (fun p => decide (p.1 = some u))).map Prod.snd := by
          have hfc : ∀ p ∈ jsMapOfPairs (l.map fun s => (sourceUri s, s)),
              ((fun s => decide (sourceUri s = some u)) ∘ Prod.snd) p =
                decide (p.1 = some u) := by
            intro p hp
            show decide (sourceUri p.2 = some u) = decide (p.1 = some u)
            rw [hpair p hp]
          rw [List.filter_congr hfc]
      _ = (lastWithUri u l).toList := by
          rw [filter_key_of_nodup _ (some u) hnodupkeys, jsMapOfPairs_lookup,
            show (l.map fun s => (sourceUri s, s)).reverse =
              l.reverse.map (fun s => (sourceUri s, s)) from by simp,
            listLookup_pairs_find sourceUri l.reverse (some u), lastWithUri]
          cases l.reverse.find? (fun s => decide (sourceUri s = some u)) <;> rfl

/-- Witness for C4 amended at a list with a duplicated uri carrying two
different titles. -/
theorem dedupSources_first_position_last_value_witness :
    (∀ s ∈ ([⟨some ⟨some "u".data, some "A".data⟩⟩, ⟨some ⟨some "v".data, some "C".data⟩⟩,
        ⟨some ⟨some "u".data, some "B".data⟩⟩] : List GroundingSource), s.web ≠ none) ∧
    (∃ out, dedupSources ([⟨some ⟨some "u".data, some "A".data⟩⟩,
        ⟨some ⟨some "v".data, some "C".data⟩⟩,
        ⟨some ⟨some "u".data, some "B".data⟩⟩] : List GroundingSource) = .ok out ∧
      out.map sourceUri =
        (firstKeys (([⟨some ⟨some "u".data, some "A".data⟩⟩,
          ⟨some ⟨some "v".data, some "C".data⟩⟩,
          ⟨some ⟨some "u".data, some "B".data⟩⟩] : List GroundingSource).map
            sourceUri)).filter goodKey ∧
      (out.map sourceUri).Nodup ∧
      ∀ u : List Char, u ≠ [] →
        out.filter (fun s => decide (sourceUri s = some u)) =
          (lastWithUri u ([⟨some ⟨some "u".data, some "A".data⟩⟩,
            ⟨some ⟨some "v".data, some "C".data⟩⟩,
            ⟨some ⟨some "u".data, some "B".data⟩⟩] : List GroundingSource)).toList) :=
  ⟨by decide, dedupSources_first_position_last_value _ (by decide)⟩

end ResumeTailor
